import Mathlib

/-!
Verification development for `src/mdview.py` (mdview-py).

The Python source is shallowly embedded as executable Lean definitions over
`List Char` / `String`.  Regex substitutions are embedded as explicit
left-to-right scanners that mirror Python `re.sub` / `re.findall` semantics
for the concrete patterns appearing in the source (anchored multiline
patterns, greedy `\s*` / `\s+` runs that may cross newlines, lazy `.*?`
bodies that stop at the first closing delimiter and - outside DOTALL mode -
cannot cross a newline).  Character classes use the ASCII fragment, which is
the fragment all claims are about.  External collaborators (the pygments
highlighter) are abstracted as an oracle parameter: `none` models a raised
exception, `some h` a successful highlight.

Scanners use structural fuel recursion; every recursive call consumes at
least one character, so fuel equal to the length of the input is always
sufficient, and each top-level wrapper passes exactly that.
-/

/-- The ASCII escape character used by all ANSI sequences. -/
def escChar : Char := Char.ofNat 27

/-- The backtick character (used for fenced code blocks). -/
def backtick : Char := Char.ofNat 96

/-- The `ANSI_CODES` dict of `mdview.py`, as an association list in the
source's insertion order. -/
def ANSI_CODES : List (String × String) :=
  [ ("bold", "\x1b[1m"), ("italic", "\x1b[3m"), ("underline", "\x1b[4m"),
    ("reset", "\x1b[0m"),
    ("bold_italic", "\x1b[1m\x1b[3m"), ("bold_underline", "\x1b[1m\x1b[4m"),
    ("italic_underline", "\x1b[3m\x1b[4m"),
    ("bold_italic_underline", "\x1b[1m\x1b[3m\x1b[4m"),
    ("strikethrough", "\x1b[9m"),
    ("italic_bold_underline", "\x1b[3m\x1b[1m\x1b[4m"),
    ("double_underline", "\x1b[21m"), ("inverse", "\x1b[7m"),
    ("hidden", "\x1b[8m"), ("fraktur", "\x1b[20m"), ("normal", "\x1b[22m"),
    ("blink", "\x1b[5m"), ("reverse", "\x1b[7m") ]

/-- `apply_ansi_style(text, style)`:
`f"{ANSI_CODES.get(style, '')}{text}{ANSI_CODES['reset']}"`.
(`'reset'` is a key of the dict, so indexing equals lookup-with-default.) -/
def apply_ansi_style (text style : String) : String :=
  ((List.lookup style ANSI_CODES).getD "") ++ text ++
    ((List.lookup "reset" ANSI_CODES).getD "")

/-- The ANSI prefix for a style, as a character list. -/
def stylePre (style : String) : List Char :=
  ((List.lookup style ANSI_CODES).getD "").data

/-- The shared reset suffix `ANSI_CODES['reset']`, as a character list. -/
def resetL : List Char := ((List.lookup "reset" ANSI_CODES).getD "").data

/-- `apply_ansi_style` on character lists, as used by the replacement
callbacks inside `render_markdown`. -/
def ansiWrap (style : String) (g : List Char) : List Char :=
  stylePre style ++ g ++ resetL

/-- Python regex `\s` (ASCII fragment): space, tab, newline, carriage
return, vertical tab, form feed. -/
def isPySpace (c : Char) : Bool :=
  c == ' ' || c == '\t' || c == '\n' || c == '\r' ||
  c == Char.ofNat 11 || c == Char.ofNat 12

/-- Python regex `\w` (ASCII fragment): letters, digits, underscore. -/
def isWordChar (c : Char) : Bool := c.isAlphanum || c == '_'

/-- Whether a list starts with a `\s` character (used for `\s+` guards). -/
def headIsSpace : List Char → Bool
  | [] => false
  | c :: _ => isPySpace c

/-!  ### Line-anchored substitution stages (re.M)

Each scanner walks the text left to right carrying a flag that is true
exactly at line-start positions (offset 0 or right after a `'\n'`), the
positions where an `^`-anchored pattern can match.  On a match the
replacement is emitted and scanning resumes at the match end (which is
never itself a line start, since the matched `\s*`/`\s+` run is maximal
and the rest-of-line group contains no newline); on a non-match one
character is copied. -/

/-- Stage 1 of `render_markdown`:
`re.sub(r'^(#{1,6})\s*(.*)', lambda m: apply_ansi_style(m.group(2), 'bold'), text, flags=re.M)`.
`#{1,6}` takes greedily up to six hashes, `\s*` the maximal (possibly
newline-crossing) whitespace run, `(.*)` the rest of that line. -/
def headingGo : Nat → Bool → List Char → List Char
  | _, _, [] => []
  | 0, _, s => s
  | fuel+1, atStart, c :: rest =>
    if atStart && c == '#' then
      let hs := min ((rest.takeWhile (fun x => x == '#')).length) 5
      let afterH := rest.drop hs
      let w := (afterH.takeWhile isPySpace).length
      let afterW := afterH.drop w
      let g := afterW.takeWhile (fun x => !(x == '\n'))
      let remainder := afterW.drop g.length
      ansiWrap "bold" g ++ headingGo fuel false remainder
    else c :: headingGo fuel (c == '\n') rest

def headingStage (s : List Char) : List Char := headingGo s.length true s

/-- Stage 6 of `render_markdown`:
`re.sub(r'^\> (.*)', lambda m: apply_ansi_style(m.group(1), 'italic'), text, flags=re.M)`:
a literal `'> '` at line start, the rest of the line italicised. -/
def bqGo : Nat → Bool → List Char → List Char
  | _, _, [] => []
  | 0, _, s => s
  | fuel+1, atStart, c :: rest =>
    if atStart && c == '>' && rest.head? == some ' ' then
      let afterSp := rest.drop 1
      let g := afterSp.takeWhile (fun x => !(x == '\n'))
      let remainder := afterSp.drop g.length
      ansiWrap "italic" g ++ bqGo fuel false remainder
    else c :: bqGo fuel (c == '\n') rest

def bqStage (s : List Char) : List Char := bqGo s.length true s

/-- Stage 7 of `render_markdown`:
`re.sub(r'^[*-+]\s+(.*)', lambda m: f"- {m.group(1)}", text, flags=re.M)`.
Inside the bracket, `*-+` is a character RANGE from `'*'` (42) to `'+'`
(43): the class matches only `'*'` and `'+'`, not `'-'`. -/
def ulistGo : Nat → Bool → List Char → List Char
  | _, _, [] => []
  | 0, _, s => s
  | fuel+1, atStart, c :: rest =>
    if atStart && (c == '*' || c == '+') && headIsSpace rest then
      let w := (rest.takeWhile isPySpace).length
      let afterW := rest.drop w
      let g := afterW.takeWhile (fun x => !(x == '\n'))
      let remainder := afterW.drop g.length
      '-' :: ' ' :: (g ++ ulistGo fuel false remainder)
    else c :: ulistGo fuel (c == '\n') rest

def ulistStage (s : List Char) : List Char := ulistGo s.length true s

/-- Stage 8 of `render_markdown`:
`re.sub(r'^\d+\.\s+(.*)', lambda m: f"1. {m.group(1)}", text, flags=re.M)`:
a maximal digit run, a period, a maximal `\s+` run (at least one), the
rest of the line; replaced by `1. ` plus the rest of the line. -/
def olistGo : Nat → Bool → List Char → List Char
  | _, _, [] => []
  | 0, _, s => s
  | fuel+1, atStart, c :: rest =>
    if atStart && c.isDigit then
      let ds := (rest.takeWhile Char.isDigit).length
      let afterD := rest.drop ds
      if afterD.head? == some '.' && headIsSpace (afterD.drop 1) then
        let afterDot := afterD.drop 1
        let w := (afterDot.takeWhile isPySpace).length
        let afterW := afterDot.drop w
        let g := afterW.takeWhile (fun x => !(x == '\n'))
        let remainder := afterW.drop g.length
        '1' :: '.' :: ' ' :: (g ++ olistGo fuel false remainder)
      else c :: olistGo fuel (c == '\n') rest
    else c :: olistGo fuel (c == '\n') rest

def olistStage (s : List Char) : List Char := olistGo s.length true s

/-!  ### Inline substitution stages

Patterns of the shape `D(.*?)D` for a delimiter `D` (`**`, `_`, `__`,
`~~`).  Without `re.S` the lazy body cannot contain a newline, and stops
at the earliest following occurrence of the delimiter. -/

/-- Search for the earliest closing delimiter `d :: ds`: returns the body
before it and the remainder after it, failing at a newline or at the end
of the text. -/
def findClose (d : Char) (ds : List Char) : List Char → Option (List Char × List Char)
  | [] => none
  | c :: rest =>
    if (d :: ds).isPrefixOf (c :: rest) then some ([], rest.drop ds.length)
    else if c == '\n' then none
    else
      match findClose d ds rest with
      | some (b, r) => some (c :: b, r)
      | none => none

/-- One inline stage `re.sub(r'D(.*?)D', lambda m: apply_ansi_style(m.group(1), style), text)`
for delimiter `D = d :: ds`. -/
def inlineGo : Nat → Char → List Char → String → List Char → List Char
  | _, _, _, _, [] => []
  | 0, _, _, _, s => s
  | fuel+1, d, ds, style, c :: rest =>
    if (d :: ds).isPrefixOf (c :: rest) then
      match findClose d ds (rest.drop ds.length) with
      | some (b, r) => ansiWrap style b ++ inlineGo fuel d ds style r
      | none => c :: inlineGo fuel d ds style rest
    else c :: inlineGo fuel d ds style rest

/-- Stage 2: `re.sub(r'\*\*(.*?)\*\*', ..., 'bold')`. -/
def boldStage (s : List Char) : List Char := inlineGo s.length '*' ['*'] "bold" s

/-- Stage 3: `re.sub(r'_(.*?)_', ..., 'italic')`. -/
def italicStage (s : List Char) : List Char := inlineGo s.length '_' [] "italic" s

/-- Stage 4: `re.sub(r'__(.*?)__', ..., 'underline')`. -/
def underlineStage (s : List Char) : List Char := inlineGo s.length '_' ['_'] "underline" s

/-- Stage 5: `re.sub(r'~~(.*?)~~', ..., 'strikethrough')`. -/
def strikeStage (s : List Char) : List Char := inlineGo s.length '~' ['~'] "strikethrough" s

/-!  ### Fenced code block stage -/

/-- The fence delimiter, three backticks. -/
def fenceL : List Char := [backtick, backtick, backtick]

/-- Search for the earliest closing fence in DOTALL mode (`(.*?)` with
`re.S` may cross newlines): body before it, remainder after it. -/
def findCloseS : List Char → Option (List Char × List Char)
  | [] => none
  | c :: rest =>
    if fenceL.isPrefixOf (c :: rest) then some ([], (c :: rest).drop 3)
    else
      match findCloseS rest with
      | some (b, r) => some (c :: b, r)
      | none => none

/-- `re.findall(r'```(\w+)?\n(.*?)```', text, re.S)`: at a fence, the
optional greedy `(\w+)?` language tag must be followed immediately by a
newline (shrinking the greedy word run can never expose a newline, so the
maximal run is the only candidate); the lazy DOTALL body runs to the
earliest closing fence.  On failure scanning advances one character, on
success it resumes at the match end.  An absent group is reported as the
empty string, as `re.findall` does. -/
def findBlocksGo : Nat → List Char → List (List Char × List Char)
  | _, [] => []
  | 0, _ => []
  | fuel+1, c :: rest =>
    if fenceL.isPrefixOf (c :: rest) then
      let after := rest.drop 2
      let lang := after.takeWhile isWordChar
      let afterW := after.drop lang.length
      if afterW.head? == some '\n' then
        match findCloseS (afterW.drop 1) with
        | some (b, r) => (lang, b) :: findBlocksGo fuel r
        | none => findBlocksGo fuel rest
      else findBlocksGo fuel rest
    else findBlocksGo fuel rest

def findBlocks (s : List Char) : List (List Char × List Char) :=
  findBlocksGo s.length s

/-- `lang if lang else "plaintext"`: the empty string is falsy. -/
def chooseLang (lang : List Char) : List Char :=
  if lang.isEmpty then "plaintext".data else lang

/-- Abstraction of the pygments pipeline
(`get_lexer_by_name` + `highlight`): `none` models any raised exception,
`some h` a successful highlight of the given code with the given
language. -/
abbrev Pyg := List Char → List Char → Option (List Char)

/-- `highlight_code(code, lang)`: try the highlighter, and on any failure
return `code` unchanged (the bare `except:` swallows everything). -/
def highlight_code (pyg : Pyg) (code lang : List Char) : List Char :=
  match pyg code lang with
  | some h => h
  | none => code

/-- The always-failing highlighter oracle (every pygments call raises). -/
def pygNone : Pyg := fun _ _ => none

/-- The literal text `f"```{lang}\n{code}```"` replaced in the document. -/
def fencePat (lang code : List Char) : List Char :=
  fenceL ++ lang ++ '\n' :: (code ++ fenceL)

/-- Python `str.replace`: replace every non-overlapping occurrence of the
(nonempty) pattern `p :: ps`, left to right. -/
def replaceAllGo : Nat → Char → List Char → List Char → List Char → List Char
  | _, _, _, _, [] => []
  | 0, _, _, _, s => s
  | fuel+1, p, ps, repl, c :: rest =>
    if (p :: ps).isPrefixOf (c :: rest) then
      repl ++ replaceAllGo fuel p ps repl (rest.drop ps.length)
    else c :: replaceAllGo fuel p ps repl rest

/-- `text.replace(pat, repl)`.  All patterns used by `render_markdown`
start with a backtick, so the empty-pattern branch is unreachable. -/
def replaceAll (pat repl s : List Char) : List Char :=
  match pat with
  | [] => s
  | p :: ps => replaceAllGo s.length p ps repl s

/-- The `(code, lang)` argument pairs passed to `highlight_code` by the
fenced-block loop of `render_markdown`. -/
def fencedCalls (s : List Char) : List (List Char × List Char) :=
  (findBlocks s).map (fun lc => (lc.2, chooseLang lc.1))

/-- The language tags handed to the highlighter for a document. -/
def invoked_langs (s : List Char) : List (List Char) :=
  (fencedCalls s).map (fun pr => pr.2)

/-- The fenced-block loop of `render_markdown`: the blocks are collected
once with `re.findall`, then each block's original fence text is replaced
(every occurrence) by its highlighted rendering. -/
def fencedStage (pyg : Pyg) (s : List Char) : List Char :=
  (findBlocks s).foldl
    (fun acc lc =>
      replaceAll (fencePat lc.1 lc.2)
        (highlight_code pyg lc.2 (chooseLang lc.1)) acc) s

/-- `render_markdown(text)`: the nine substitution stages in source
order. -/
def render_markdown (pyg : Pyg) (text : String) : String :=
  ⟨fencedStage pyg (olistStage (ulistStage (bqStage (strikeStage
    (underlineStage (italicStage (boldStage (headingStage text.data))))))))⟩

/-!  ### view_markdown truncation, CLI entry, trigger predicates -/

/-- Python `str.split()` (no separator): whitespace runs are separators,
no empty tokens are produced. -/
def pyWordsGo : Nat → List Char → List (List Char)
  | _, [] => []
  | 0, _ => []
  | fuel+1, c :: rest =>
    if isPySpace c then pyWordsGo fuel rest
    else
      let w := rest.takeWhile (fun x => !(isPySpace x))
      (c :: w) :: pyWordsGo fuel (rest.drop w.length)

def pyWords (s : List Char) : List (List Char) := pyWordsGo s.length s

/-- Python `' '.join(ws)`. -/
def joinSp : List (List Char) → List Char
  | [] => []
  | [w] => w
  | w :: ws => w ++ ' ' :: joinSp ws

/-- The word-limit truncation step of `view_markdown`:
`words = content.split()`; `if word_limit: content = ' '.join(words[:word_limit])`.
`None` and `0` are falsy, so they skip the truncation. -/
def view_markdown_truncate (content : String) (word_limit : Option Nat) : String :=
  match word_limit with
  | none => content
  | some n => if n == 0 then content else ⟨joinSp ((pyWords content.data).take n)⟩

/-- The usage message printed by the `__main__` block. -/
def usage_message : String :=
  "Usage: view <filename>.md or <GitHub raw link> [word_limit] [--html]"

/-- Python `str.isdigit` (ASCII fragment): nonempty and all digits. -/
def pyIsDigitStr (s : String) : Bool :=
  !s.data.isEmpty && s.data.all Char.isDigit

/-- `int(s)` for a digit string. -/
def strToNat (s : String) : Nat :=
  s.data.foldl (fun n c => n * 10 + (c.toNat - 48)) 0

/-- Outcome of the argument-handling prefix of the `__main__` block:
either print a message and exit with a code, or proceed into the pipeline
with the chosen file name, word limit and html flag. -/
inductive MainStep where
  | usageExit : Nat → String → MainStep
  | proceed : String → Option Nat → Bool → MainStep
  deriving DecidableEq

/-- The `__main__` argument handling of `mdview.py`: `argv` includes the
program name.  Fewer than two entries prints the usage message and exits
with code 1; otherwise `word_limit` and `output_html` are parsed exactly
as in the source's `if/elif` chain. -/
def main_entry (argv : List String) : MainStep :=
  if argv.length < 2 then .usageExit 1 usage_message
  else
    let filename := (argv.drop 1).headD ""
    let a2 := (argv.drop 2).headD ""
    let a3 := (argv.drop 3).headD ""
    if argv.length == 3 && pyIsDigitStr a2 then
      .proceed filename (some (strToNat a2)) false
    else if argv.length > 3 && a2 == "--html" then
      if argv.length == 4 && pyIsDigitStr a3 then
        .proceed filename (some (strToNat a3)) true
      else .proceed filename none true
    else .proceed filename none false

/-!  ### Predicates used to state the claims -/

/-- `noLineTrig trig b s = true` iff `trig` fails at every line-start
position of `s` (with `b` recording whether the current position is a
line start). -/
def noLineTrig (trig : List Char → Bool) : Bool → List Char → Bool
  | _, [] => true
  | b, c :: rest => !(b && trig (c :: rest)) && noLineTrig trig (c == '\n') rest

/-- A line starting with `'#'`. -/
def trigHash : List Char → Bool
  | [] => false
  | c :: _ => c == '#'

/-- A line starting with `'> '`. -/
def trigQuote : List Char → Bool
  | [] => false
  | c :: rest => c == '>' && rest.head? == some ' '

/-- A line starting with a list marker `'*'`, `'-'` or `'+'` followed by a
whitespace character. -/
def trigMarker : List Char → Bool
  | [] => false
  | c :: rest => (c == '*' || c == '-' || c == '+') && headIsSpace rest

/-- A line starting with one or more digits followed by a period. -/
def trigOrdinal : List Char → Bool
  | [] => false
  | c :: rest =>
    c.isDigit && ((rest.drop (rest.takeWhile Char.isDigit).length).head? == some '.')

/-- `occursB pat s = true` iff `pat` occurs as a contiguous substring of
`s`. -/
def occursB (pat : List Char) : List Char → Bool
  | [] => pat.isPrefixOf []
  | c :: rest => pat.isPrefixOf (c :: rest) || occursB pat rest

/-!  ## Helper lemmas -/

theorem drop_len_app (a b : List Char) : (a ++ b).drop a.length = b := by simp

theorem isPrefixOf_app_self (a b : List Char) : a.isPrefixOf (a ++ b) = true := by
  induction a with
  | nil => simp [List.isPrefixOf]
  | cons c as ih => simp [List.isPrefixOf, ih]

theorem takeWhile_app_stop (p : Char → Bool) (a b : List Char)
    (ha : ∀ c ∈ a, p c = true) (hb : ∀ x, b.head? = some x → p x = false) :
    (a ++ b).takeWhile p = a := by
  induction a with
  | nil =>
    cases b with
    | nil => rfl
    | cons x bs => simp [List.takeWhile_cons, hb x rfl]
  | cons c as ih =>
    simp only [List.cons_append, List.takeWhile_cons, ha c (by simp)]
    simpa using ih (fun x hx => ha x (by simp [hx]))

theorem takeWhile_all (p : Char → Bool) (l : List Char)
    (h : ∀ c ∈ l, p c = true) : l.takeWhile p = l :=
  List.takeWhile_eq_self_iff.mpr h

theorem occursB_false_of_head (d : Char) (ds s : List Char)
    (h : ∀ c ∈ s, ¬ c = d) : occursB (d :: ds) s = false := by
  induction s with
  | nil => rfl
  | cons c rest ih =>
    have hc : (d == c) = false := by
      refine beq_eq_false_iff_ne.mpr ?_
      intro he
      exact h c (by simp) he.symm
    simp [occursB, List.isPrefixOf, hc, ih (fun x hx => h x (by simp [hx]))]

theorem forall_ne_of_occursB_single (d : Char) (s : List Char)
    (h : occursB [d] s = false) : ∀ c ∈ s, ¬ c = d := by
  induction s with
  | nil => simp
  | cons c rest ih =>
    simp only [occursB, List.isPrefixOf, Bool.or_eq_false_iff, Bool.and_eq_false_iff] at h
    intro x hx
    rcases List.mem_cons.mp hx with hx | hx
    · subst hx
      intro he
      rcases h.1 with h1 | h1
      · rw [he] at h1
        simp at h1
      · simp [List.isPrefixOf] at h1
    · exact ih h.2 x hx

theorem inlineGo_nil (fuel : Nat) (d : Char) (ds : List Char) (style : String) :
    inlineGo fuel d ds style [] = [] := by cases fuel <;> rfl

theorem inlineGo_id (d : Char) (ds : List Char) (style : String) (s : List Char)
    (h : occursB (d :: ds) s = false) : ∀ fuel, inlineGo fuel d ds style s = s := by
  induction s with
  | nil => intro fuel; cases fuel <;> rfl
  | cons c rest ih =>
    intro fuel
    simp only [occursB, Bool.or_eq_false_iff] at h
    cases fuel with
    | zero => rfl
    | succ f => simp [inlineGo, h.1, ih h.2 f]

theorem headingGo_id (s : List Char) :
    ∀ b, noLineTrig trigHash b s = true → ∀ fuel, headingGo fuel b s = s := by
  induction s with
  | nil => intro b _ fuel; cases fuel <;> rfl
  | cons c rest ih =>
    intro b h fuel
    simp only [noLineTrig, Bool.and_eq_true, Bool.not_eq_true'] at h
    cases fuel with
    | zero => rfl
    | succ f =>
      have hguard : (b && (c == '#')) = false := by simpa [trigHash] using h.1
      simp [headingGo, hguard, ih _ h.2 f]

theorem bqGo_id (s : List Char) :
    ∀ b, noLineTrig trigQuote b s = true → ∀ fuel, bqGo fuel b s = s := by
  induction s with
  | nil => intro b _ fuel; cases fuel <;> rfl
  | cons c rest ih =>
    intro b h fuel
    simp only [noLineTrig, Bool.and_eq_true, Bool.not_eq_true'] at h
    cases fuel with
    | zero => rfl
    | succ f =>
      have hguard : (b && (c == '>') && (rest.head? == some ' ')) = false := by
        have h1 := h.1
        simp only [trigQuote] at h1
        cases b <;> cases hc : (c == '>') <;> simp_all
      simp [bqGo, hguard, ih _ h.2 f]

theorem ulistGo_id (s : List Char) :
    ∀ b, noLineTrig trigMarker b s = true → ∀ fuel, ulistGo fuel b s = s := by
  induction s with
  | nil => intro b _ fuel; cases fuel <;> rfl
  | cons c rest ih =>
    intro b h fuel
    simp only [noLineTrig, Bool.and_eq_true, Bool.not_eq_true'] at h
    cases fuel with
    | zero => rfl
    | succ f =>
      have hguard : (b && (c == '*' || c == '+') && headIsSpace rest) = false := by
        have h1 := h.1
        simp only [trigMarker] at h1
        cases b <;> cases hs : headIsSpace rest <;>
          cases h1c : (c == '*') <;> cases h2c : (c == '+') <;> simp_all
      simp [ulistGo, hguard, ih _ h.2 f]

theorem olistGo_id (s : List Char) :
    ∀ b, noLineTrig trigOrdinal b s = true → ∀ fuel, olistGo fuel b s = s := by
  induction s with
  | nil => intro b _ fuel; cases fuel <;> rfl
  | cons c rest ih =>
    intro b h fuel
    simp only [noLineTrig, Bool.and_eq_true, Bool.not_eq_true'] at h
    cases fuel with
    | zero => rfl
    | succ f =>
      have h1 := h.1
      simp only [trigOrdinal] at h1
      cases hb : b with
      | false => simp [olistGo, ih _ h.2 f]
      | true =>
        rw [hb] at h1
        simp only [Bool.true_and] at h1
        cases hd : c.isDigit with
        | false => simp [olistGo, hd, ih _ h.2 f]
        | true =>
          rw [hd] at h1
          simp only [Bool.true_and] at h1
          simp [olistGo, hd, ih _ h.2 f]
          intro hdot
          exact absurd hdot (by simpa using h1)

theorem findBlocksGo_nil (s : List Char) (h : occursB fenceL s = false) :
    ∀ fuel, findBlocksGo fuel s = [] := by
  induction s with
  | nil => intro fuel; cases fuel <;> rfl
  | cons c rest ih =>
    intro fuel
    simp only [occursB, Bool.or_eq_false_iff] at h
    cases fuel with
    | zero => rfl
    | succ f => simp [findBlocksGo, show fenceL.isPrefixOf (c :: rest) = false from h.1, ih h.2 f]

theorem fencedStage_id (pyg : Pyg) (s : List Char) (h : occursB fenceL s = false) :
    fencedStage pyg s = s := by
  simp [fencedStage, findBlocks, findBlocksGo_nil s h]

theorem noLineTrig_false_of_no_nl (trig : List Char → Bool) (s : List Char)
    (h : ∀ c ∈ s, ¬ c = '\n') : noLineTrig trig false s = true := by
  induction s with
  | nil => rfl
  | cons c rest ih =>
    have hc : (c == '\n') = false := by
      refine beq_eq_false_iff_ne.mpr ?_
      exact h c (by simp)
    simp [noLineTrig, hc, ih (fun x hx => h x (by simp [hx]))]

theorem noLineTrig_single (trig : List Char → Bool) (s : List Char)
    (h : ∀ c ∈ s, ¬ c = '\n') (ht : trig s = false) : noLineTrig trig true s = true := by
  cases s with
  | nil => rfl
  | cons c rest =>
    have hc : (c == '\n') = false := by
      refine beq_eq_false_iff_ne.mpr ?_
      exact h c (by simp)
    simp [noLineTrig, ht, hc,
      noLineTrig_false_of_no_nl trig rest (fun x hx => h x (by simp [hx]))]

theorem findClose_boundary (d : Char) (ds t r : List Char)
    (h : ∀ c ∈ t, ¬ c = d ∧ ¬ c = '\n') :
    findClose d ds (t ++ d :: (ds ++ r)) = some (t, r) := by
  induction t with
  | nil =>
    simp only [List.nil_append, findClose, List.isPrefixOf, BEq.refl, Bool.true_and,
      isPrefixOf_app_self, if_pos]
    simp [drop_len_app]
  | cons c ts ih =>
    have hcd : (d == c) = false := by
      refine beq_eq_false_iff_ne.mpr ?_
      intro he
      exact (h c (by simp)).1 he.symm
    have hcn : (c == '\n') = false := by
      refine beq_eq_false_iff_ne.mpr ?_
      exact (h c (by simp)).2
    simp [findClose, List.isPrefixOf, hcd, hcn,
      ih (fun x hx => h x (by simp [hx]))]

theorem inlineGo_bold_wrap (style : String) (t : List Char) (fuel : Nat)
    (h : ∀ c ∈ t, ¬ c = '*' ∧ ¬ c = '\n') :
    inlineGo (fuel + 1) '*' ['*'] style ('*' :: '*' :: (t ++ ['*', '*'])) =
      ansiWrap style t := by
  have hfc : findClose '*' ['*'] (t ++ '*' :: (['*'] ++ [])) = some (t, []) :=
    findClose_boundary '*' ['*'] t [] h
  simp only [List.append_nil] at hfc
  simp [inlineGo, List.isPrefixOf, hfc, inlineGo_nil]

theorem findCloseS_boundary (b r : List Char) (h : ∀ c ∈ b, ¬ c = backtick) :
    findCloseS (b ++ (fenceL ++ r)) = some (b, r) := by
  induction b with
  | nil => simp [findCloseS, isPrefixOf_app_self, fenceL, List.drop]
  | cons c bs ih =>
    have hcb : (backtick == c) = false := by
      refine beq_eq_false_iff_ne.mpr ?_
      intro he
      exact h c (by simp) he.symm
    have ih' := ih (fun x hx => h x (by simp [hx]))
    simp only [fenceL, List.cons_append, List.nil_append] at ih'
    simp [findCloseS, fenceL, List.isPrefixOf, hcb, ih']

theorem findBlocksGo_nil_fuel (fuel : Nat) : findBlocksGo fuel [] = [] := by
  cases fuel <;> rfl

theorem findBlocksGo_plain (fuel : Nat) (body : List Char)
    (h : ∀ c ∈ body, ¬ c = backtick) :
    findBlocksGo (fuel + 1) (fenceL ++ '\n' :: (body ++ fenceL)) = [([], body)] := by
  have hfc : findCloseS (body ++ (fenceL ++ [])) = some (body, []) :=
    findCloseS_boundary body [] h
  simp only [List.append_nil, fenceL] at hfc
  have hnw : isWordChar '\n' = false := by decide
  simp [findBlocksGo, fenceL, List.isPrefixOf, List.takeWhile, hnw, hfc,
    findBlocksGo_nil_fuel]

theorem mem_takeWhile_pred (p : Char → Bool) (l : List Char) (x : Char)
    (h : x ∈ l.takeWhile p) : p x = true := by
  induction l with
  | nil => simp [List.takeWhile] at h
  | cons c rest ih =>
    rw [List.takeWhile_cons] at h
    by_cases hc : p c = true
    · rw [if_pos hc] at h
      rcases List.mem_cons.mp h with h | h
      · exact h ▸ hc
      · exact ih h
    · rw [if_neg hc] at h
      simp at h

theorem pyWordsGo_facts : ∀ fuel s w, w ∈ pyWordsGo fuel s →
    w ≠ [] ∧ ∀ c ∈ w, isPySpace c = false := by
  intro fuel
  induction fuel with
  | zero => intro s w hw; cases s <;> simp [pyWordsGo] at hw
  | succ f ih =>
    intro s w hw
    cases s with
    | nil => simp [pyWordsGo] at hw
    | cons c rest =>
      by_cases hc : isPySpace c = true
      · rw [pyWordsGo, if_pos hc] at hw
        exact ih rest w hw
      · rw [pyWordsGo, if_neg hc] at hw
        rcases List.mem_cons.mp hw with hw | hw
        · subst hw
          refine ⟨by simp, ?_⟩
          intro x hx
          rcases List.mem_cons.mp hx with hx | hx
          · subst hx
            exact Bool.eq_false_iff.mpr hc
          · have := mem_takeWhile_pred (fun y => !(isPySpace y)) rest x hx
            simpa using this
        · exact ih _ w hw

theorem pyWordsGo_join : ∀ ws : List (List Char), ∀ fuel : Nat,
    (∀ w ∈ ws, w ≠ [] ∧ ∀ c ∈ w, isPySpace c = false) →
    (joinSp ws).length ≤ fuel → pyWordsGo fuel (joinSp ws) = ws := by
  intro ws
  induction ws with
  | nil =>
    intro fuel _ _
    cases fuel <;> rfl
  | cons w ws ih =>
    intro fuel hprops hfuel
    obtain ⟨hne, hchars⟩ := hprops w (by simp)
    obtain ⟨c, w', rfl⟩ : ∃ c w', w = c :: w' := by
      cases w with
      | nil => exact absurd rfl hne
      | cons c w' => exact ⟨c, w', rfl⟩
    have hcsp : isPySpace c = false := hchars c (by simp)
    have hw' : ∀ x ∈ w', (fun y => !(isPySpace y)) x = true := by
      intro x hx
      simp [hchars x (by simp [hx])]
    cases ws with
    | nil =>
      simp only [joinSp] at hfuel ⊢
      cases fuel with
      | zero => simp at hfuel
      | succ f =>
        rw [pyWordsGo, if_neg (by simp [hcsp])]
        simp only [takeWhile_all _ _ hw', List.drop_length]
        cases f <;> rfl
    | cons w2 ws2 =>
      simp only [joinSp] at hfuel ⊢
      cases fuel with
      | zero => simp at hfuel
      | succ f =>
        rw [show (c :: w') ++ ' ' :: joinSp (w2 :: ws2) =
              c :: (w' ++ ' ' :: joinSp (w2 :: ws2)) from rfl] at hfuel ⊢
        rw [pyWordsGo, if_neg (by simp [hcsp])]
        simp only [takeWhile_app_stop _ w' (' ' :: joinSp (w2 :: ws2)) hw'
            (by intro x hx; simp at hx; subst hx; decide),
          drop_len_app]
        cases f with
        | zero =>
          simp at hfuel
        | succ f2 =>
          rw [pyWordsGo, if_pos (by decide)]
          rw [ih f2 (fun x hx => hprops x (by simp [hx]))
                (by simp at hfuel; omega)]

theorem pyWords_joinSp_take (content : String) (n : Nat) :
    pyWords (joinSp ((pyWords content.data).take n)) = (pyWords content.data).take n := by
  apply pyWordsGo_join
  · intro w hw
    exact pyWordsGo_facts content.data.length content.data w (List.take_subset n _ hw)
  · exact le_refl _

theorem olistGo_nil (fuel : Nat) (b : Bool) : olistGo fuel b [] = [] := by
  cases fuel <;> rfl

theorem olistGo_match (fuel : Nat) (d : Char) (ds : List Char) (w : Char) (ws r : List Char)
    (hd : d.isDigit = true) (hds : ∀ c ∈ ds, c.isDigit = true)
    (hw : isPySpace w = true) (hws : ∀ c ∈ ws, isPySpace c = true)
    (hrb : headIsSpace r = false)
    (hrn : ∀ c ∈ r, ¬ c = '\n') :
    olistGo (fuel + 1) true ((d :: ds) ++ ('.' :: ((w :: ws) ++ r))) =
      '1' :: '.' :: ' ' :: r := by
  have hr : ∀ x, r.head? = some x → isPySpace x = false := by
    intro x hx
    cases r with
    | nil => simp at hx
    | cons a as =>
      simp at hx
      subst hx
      simpa [headIsSpace] using hrb
  have htw : (ds ++ ('.' :: ((w :: ws) ++ r))).takeWhile Char.isDigit = ds := by
    refine takeWhile_app_stop _ ds _ hds ?_
    intro x hx
    simp at hx
    subst hx
    decide
  have hdrop : (ds ++ ('.' :: ((w :: ws) ++ r))).drop ds.length =
      '.' :: ((w :: ws) ++ r) := drop_len_app _ _
  have htw2 : ((w :: ws) ++ r).takeWhile isPySpace = w :: ws := by
    refine takeWhile_app_stop _ (w :: ws) r ?_ hr
    intro x hx
    rcases List.mem_cons.mp hx with hx | hx
    · exact hx ▸ hw
    · exact hws x hx
  have hdrop2 : ((w :: ws) ++ r).drop (w :: ws).length = r := drop_len_app _ _
  have hg : r.takeWhile (fun x => !(x == '\n')) = r := by
    refine takeWhile_all _ _ ?_
    intro x hx
    simp [hrn x hx]
  rw [show (d :: ds) ++ ('.' :: ((w :: ws) ++ r)) =
        d :: (ds ++ ('.' :: ((w :: ws) ++ r))) from rfl]
  rw [olistGo, if_pos (by simp [hd])]
  simp only [htw, hdrop]
  rw [if_pos (by simp [headIsSpace, hw])]
  simp only [List.drop_succ_cons, List.drop_zero, htw2, hdrop2, hg, List.drop_length,
    olistGo_nil, List.append_nil]

/-!  ## Claim theorems -/

/-- C4: for every code string and language tag, `highlight_code` never
propagates an error (it is a total function of the oracle outcome), and
whenever the highlighter fails - unknown lexer or highlighting error,
both modelled by the oracle returning `none` - it returns the code
unchanged with no styling. -/
theorem claim_highlight_fail_open (pyg : Pyg) (code lang : List Char)
    (h : pyg code lang = none) : highlight_code pyg code lang = code := by
  simp [highlight_code, h]

theorem claim_highlight_fail_open_witness :
    pygNone "x = 1".data "xyzzy123".data = none ∧
    highlight_code pygNone "x = 1".data "xyzzy123".data = "x = 1".data :=
  ⟨rfl, claim_highlight_fail_open pygNone "x = 1".data "xyzzy123".data rfl⟩

/-- C5 (failing input): the character class `[*-+]` of the unordered-list
rule is the range `'*'`..`'+'` and does not match `'-'`, so the line
`"-\titem"` - a dash list marker followed by a tab - is left completely
unchanged by `render_markdown` instead of being normalized to `"- item"`;
on the spec's own example the stage nevertheless produces the documented
output, because a `"- "` line is already in normalized form. -/
theorem claim_ulist_divergence :
    render_markdown pygNone "-\titem" = "-\titem" ∧
    render_markdown pygNone "- item one\n* item two\n" = "- item one\n- item two\n" :=
  ⟨rfl, rfl⟩

/-- C9: invoked with fewer than two argv entries (i.e. zero content
arguments), the program prints the usage message and exits with code 1. -/
theorem claim_usage_exit (argv : List String) (h : argv.length < 2) :
    main_entry argv = MainStep.usageExit 1 usage_message := by
  simp [main_entry, h]

theorem claim_usage_exit_witness :
    (["mdview.py"] : List String).length < 2 ∧
    main_entry ["mdview.py"] = MainStep.usageExit 1 usage_message :=
  ⟨by decide, claim_usage_exit ["mdview.py"] (by decide)⟩

/-- C10: `apply_ansi_style` always returns the style's ANSI prefix, then
the text, then the reset sequence `ESC[0m` (and, being a total function,
never raises); for a style absent from the table the prefix defaults to
the empty string, so the result is the text followed by only the reset
sequence. -/
theorem claim_apply_ansi_style (text style : String) :
    apply_ansi_style text style =
      ((List.lookup style ANSI_CODES).getD "") ++ text ++ "\x1b[0m" ∧
    (List.lookup style ANSI_CODES = none →
      apply_ansi_style text style = text ++ "\x1b[0m") := by
  have hreset : List.lookup "reset" ANSI_CODES = some "\x1b[0m" := by decide
  constructor
  · rw [apply_ansi_style, hreset]
    rfl
  · intro h
    rw [apply_ansi_style, hreset, h]
    rfl

theorem claim_apply_ansi_style_witness :
    List.lookup "shadow" ANSI_CODES = none ∧
    apply_ansi_style "x" "shadow" = "x" ++ "\x1b[0m" :=
  ⟨by decide, (claim_apply_ansi_style "x" "shadow").2 (by decide)⟩

/-- C8: for text containing no backtick-fence sequence, the fenced-block
stage of `render_markdown` performs no substitution: `re.findall` finds
no block and the replacement loop leaves the text it receives
unchanged. -/
theorem claim_no_fence_no_substitution (pyg : Pyg) (s : String)
    (h : occursB fenceL s.data = false) : fencedStage pyg s.data = s.data :=
  fencedStage_id pyg s.data h

theorem claim_no_fence_no_substitution_witness :
    occursB fenceL ("plain text, no fences").data = false ∧
    fencedStage pygNone ("plain text, no fences").data = ("plain text, no fences").data :=
  ⟨by decide, claim_no_fence_no_substitution pygNone "plain text, no fences" (by decide)⟩

/-- C6: a line consisting of one or more digits, a period and whitespace
followed by the item text has its ordinal prefix replaced by `1. `,
whatever the original number was; and on the spec's example,
`render_markdown` maps `"1. first\n2. second\n"` to
`"1. first\n1. second\n"`. -/
theorem claim_olist_normalize (pyg : Pyg) :
    (∀ (d : Char) (ds : List Char) (w : Char) (ws r : List Char),
        d.isDigit = true → (∀ c ∈ ds, c.isDigit = true) →
        isPySpace w = true → (∀ c ∈ ws, isPySpace c = true) →
        headIsSpace r = false → (∀ c ∈ r, ¬ c = '\n') →
        olistStage ((d :: ds) ++ ('.' :: ((w :: ws) ++ r))) = '1' :: '.' :: ' ' :: r) ∧
    render_markdown pyg "1. first\n2. second\n" = "1. first\n1. second\n" := by
  constructor
  · intro d ds w ws r hd hds hw hws hrb hrn
    have hlen : ((d :: ds) ++ ('.' :: ((w :: ws) ++ r))).length =
        (ds ++ ('.' :: ((w :: ws) ++ r))).length + 1 := by simp
    rw [olistStage, hlen]
    exact olistGo_match _ d ds w ws r hd hds hw hws hrb hrn
  · rfl

theorem claim_olist_normalize_witness :
    olistStage (('2' :: ([] : List Char)) ++ ('.' :: ((' ' :: ([] : List Char)) ++ "second".data))) =
      '1' :: '.' :: ' ' :: "second".data :=
  (claim_olist_normalize pygNone).1 '2' [] ' ' [] "second".data (by decide) (by decide)
    (by decide) (by decide) (by decide) (by decide)

/-- C7: a fenced code block whose opening fence carries no language tag
has the highlighter invoked on its body with the language
`"plaintext"`. -/
theorem claim_fence_default_plaintext (body : String)
    (h : ∀ c ∈ body.data, ¬ c = backtick) :
    invoked_langs ("```\n" ++ body ++ "```").data = ["plaintext".data] := by
  have h1 : ("```\n").data = fenceL ++ ['\n'] := by decide
  have h2 : ("```").data = fenceL := by decide
  have hdata : ("```\n" ++ body ++ "```").data =
      fenceL ++ '\n' :: (body.data ++ fenceL) := by
    show ("```\n".data ++ body.data) ++ "```".data = _
    rw [h1, h2]
    simp
  have hlen : (fenceL ++ '\n' :: (body.data ++ fenceL)).length =
      (body.data.length + 6) + 1 := by
    simp [fenceL]
  simp only [invoked_langs, fencedCalls, findBlocks, hdata, hlen]
  rw [findBlocksGo_plain (body.data.length + 6) body.data h]
  simp [chooseLang]

theorem claim_fence_default_plaintext_witness :
    (∀ c ∈ ("x").data, ¬ c = backtick) ∧
    invoked_langs ("```\n" ++ "x" ++ "```").data = ["plaintext".data] :=
  ⟨by decide, claim_fence_default_plaintext "x" (by decide)⟩

theorem trigHash_cons_ne (c : Char) (r : List Char) (h : (c == '#') = false) :
    trigHash (c :: r) = false := by simp [trigHash, h]

theorem trigQuote_cons_ne (c : Char) (r : List Char) (h : (c == '>') = false) :
    trigQuote (c :: r) = false := by simp [trigQuote, h]

theorem trigMarker_cons_ne (c : Char) (r : List Char) (h1 : (c == '*') = false)
    (h2 : (c == '-') = false) (h3 : (c == '+') = false) :
    trigMarker (c :: r) = false := by simp [trigMarker, h1, h2, h3]

theorem trigOrdinal_cons_ne (c : Char) (r : List Char) (h : c.isDigit = false) :
    trigOrdinal (c :: r) = false := by simp [trigOrdinal, h]

/-- C3 (counterexample): the source guards the truncation with
`if word_limit:`, and `0` is falsy in Python, so with word limit `N = 0`
no truncation happens at all - the output is the input, not the first 0
tokens (the empty string) that the claim prescribes. -/
theorem claim_truncate_counterexample :
    view_markdown_truncate "a b" (some 0) = "a b" ∧
    (pyWords ("a b").data).take 0 = [] ∧
    ("a b" : String) ≠ "" :=
  ⟨rfl, rfl, by decide⟩

/-- C3 (amended): for every word limit `N ≥ 1` (with `N = 0`, like
`None`, the step is skipped because `0` is falsy), the truncation step
returns the first `N` whitespace-delimited tokens joined by single
spaces; its token sequence is exactly the first `N` tokens of the input
(the full token sequence unchanged when the input has fewer than `N`
tokens), and it has exactly `N` tokens when the input has at least
`N`. -/
theorem claim_truncate_amended (content : String) (n : Nat) (h : 1 ≤ n) :
    view_markdown_truncate content (some n) = ⟨joinSp ((pyWords content.data).take n)⟩ ∧
    pyWords (view_markdown_truncate content (some n)).data = (pyWords content.data).take n ∧
    (n ≤ (pyWords content.data).length →
      (pyWords (view_markdown_truncate content (some n)).data).length = n) := by
  have hn : (n == 0) = false := by
    refine beq_eq_false_iff_ne.mpr ?_
    omega
  have he : view_markdown_truncate content (some n) =
      ⟨joinSp ((pyWords content.data).take n)⟩ := by
    simp [view_markdown_truncate, hn]
  refine ⟨he, ?_, ?_⟩
  · rw [he]
    exact pyWords_joinSp_take content n
  · intro hle
    rw [he]
    have := pyWords_joinSp_take content n
    rw [show pyWords (String.data ⟨joinSp ((pyWords content.data).take n)⟩) =
          pyWords (joinSp ((pyWords content.data).take n)) from rfl, this]
    simp [List.length_take]
    omega

theorem claim_truncate_amended_witness :
    view_markdown_truncate "alpha beta gamma" (some 2) =
      ⟨joinSp ((pyWords ("alpha beta gamma").data).take 2)⟩ ∧
    pyWords (view_markdown_truncate "alpha beta gamma" (some 2)).data =
      (pyWords ("alpha beta gamma").data).take 2 ∧
    (2 ≤ (pyWords ("alpha beta gamma").data).length →
      (pyWords (view_markdown_truncate "alpha beta gamma" (some 2)).data).length = 2) :=
  claim_truncate_amended "alpha beta gamma" 2 (by decide)

/-- C2 (counterexample): the claim quantifies over every `t` without
`'*'`, but the lazy bold body `(.*?)` cannot cross a newline, so for
`t = "\n"` the input `"**\n**"` is returned completely unstyled (it does
not begin with the bold prefix); and for `t = "_x_"` the later italic
stage rewrites the underscores, so the output no longer contains `t`. -/
theorem claim_bold_wrap_counterexample :
    render_markdown pygNone "**\n**" = "**\n**" ∧
    ("\x1b[1m".data.isPrefixOf ("**\n**").data) = false ∧
    occursB ("_x_").data (render_markdown pygNone "**_x_**").data = false :=
  ⟨rfl, by decide, by decide⟩

/-- C2 (amended): for every `t` containing no `'*'`, no newline, no
underscore, no tilde and no backtick, `render_markdown ("**" ++ t ++ "**")`
is exactly the bold prefix `ESC[1m`, then `t`, then the reset sequence
`ESC[0m` - in particular it begins with the bold prefix, ends with the
reset sequence, and contains `t` with the literal `**` markers removed. -/
theorem claim_bold_wrap_amended (pyg : Pyg) (t : String)
    (h : ∀ c ∈ t.data, ¬ c = '*' ∧ ¬ c = '\n' ∧ ¬ c = '_' ∧ ¬ c = '~' ∧ ¬ c = backtick) :
    render_markdown pyg ("**" ++ t ++ "**") = "\x1b[1m" ++ t ++ "\x1b[0m" := by
  have hu : ("**" ++ t ++ "**").data = '*' :: '*' :: (t.data ++ ['*', '*']) := by
    simp [String.data_append]
  have hsp : stylePre "bold" = '\x1b' :: ['[', '1', 'm'] := by decide
  have hnl : ∀ c ∈ ('*' :: '*' :: (t.data ++ ['*', '*'])), ¬ c = '\n' := by
    intro c hc
    simp at hc
    rcases hc with rfl | hc | rfl
    · decide
    · exact (h c hc).2.1
    · decide
  have e1 : headingStage ('*' :: '*' :: (t.data ++ ['*', '*'])) =
      '*' :: '*' :: (t.data ++ ['*', '*']) :=
    headingGo_id _ true
      (noLineTrig_single _ _ hnl (trigHash_cons_ne _ _ (by decide))) _
  have e2 : boldStage ('*' :: '*' :: (t.data ++ ['*', '*'])) = ansiWrap "bold" t.data := by
    have hlen : ('*' :: '*' :: (t.data ++ ['*', '*'])).length =
        ('*' :: (t.data ++ ['*', '*'])).length + 1 := by simp
    rw [boldStage, hlen]
    exact inlineGo_bold_wrap "bold" t.data _ (fun c hc => ⟨(h c hc).1, (h c hc).2.1⟩)
  have hPre : ∀ c ∈ stylePre "bold",
      ¬ c = '\n' ∧ ¬ c = '_' ∧ ¬ c = '~' ∧ ¬ c = backtick := by decide
  have hRes : ∀ c ∈ resetL,
      ¬ c = '\n' ∧ ¬ c = '_' ∧ ¬ c = '~' ∧ ¬ c = backtick := by decide
  have hW : ∀ c ∈ ansiWrap "bold" t.data,
      ¬ c = '\n' ∧ ¬ c = '_' ∧ ¬ c = '~' ∧ ¬ c = backtick := by
    intro c hc
    simp only [ansiWrap, List.mem_append] at hc
    rcases hc with (hc | hc) | hc
    · exact hPre c hc
    · exact ⟨(h c hc).2.1, (h c hc).2.2.1, (h c hc).2.2.2.1, (h c hc).2.2.2.2⟩
    · exact hRes c hc
  obtain ⟨R, hR⟩ : ∃ R, ansiWrap "bold" t.data = '\x1b' :: R :=
    ⟨'[' :: '1' :: 'm' :: (t.data ++ resetL), by rw [ansiWrap, hsp]; rfl⟩
  have e3 : italicStage (ansiWrap "bold" t.data) = ansiWrap "bold" t.data :=
    inlineGo_id '_' [] "italic" _
      (occursB_false_of_head '_' [] _ (fun c hc => (hW c hc).2.1)) _
  have e4 : underlineStage (ansiWrap "bold" t.data) = ansiWrap "bold" t.data :=
    inlineGo_id '_' ['_'] "underline" _
      (occursB_false_of_head '_' ['_'] _ (fun c hc => (hW c hc).2.1)) _
  have e5 : strikeStage (ansiWrap "bold" t.data) = ansiWrap "bold" t.data :=
    inlineGo_id '~' ['~'] "strikethrough" _
      (occursB_false_of_head '~' ['~'] _ (fun c hc => (hW c hc).2.2.1)) _
  have hWnl : ∀ c ∈ ansiWrap "bold" t.data, ¬ c = '\n' := fun c hc => (hW c hc).1
  have e6 : bqStage (ansiWrap "bold" t.data) = ansiWrap "bold" t.data :=
    bqGo_id _ true
      (noLineTrig_single _ _ hWnl (by rw [hR]; exact trigQuote_cons_ne _ _ (by decide))) _
  have e7 : ulistStage (ansiWrap "bold" t.data) = ansiWrap "bold" t.data :=
    ulistGo_id _ true
      (noLineTrig_single _ _ hWnl
        (by rw [hR]; exact trigMarker_cons_ne _ _ (by decide) (by decide) (by decide))) _
  have e8 : olistStage (ansiWrap "bold" t.data) = ansiWrap "bold" t.data :=
    olistGo_id _ true
      (noLineTrig_single _ _ hWnl (by rw [hR]; exact trigOrdinal_cons_ne _ _ (by decide))) _
  have e9 : fencedStage pyg (ansiWrap "bold" t.data) = ansiWrap "bold" t.data :=
    fencedStage_id pyg _
      (occursB_false_of_head backtick [backtick, backtick] _ (fun c hc => (hW c hc).2.2.2))
  have hfin : ansiWrap "bold" t.data = ("\x1b[1m" ++ t ++ "\x1b[0m").data := by
    have hx : ("\x1b[1m").data = stylePre "bold" := by decide
    have hy : ("\x1b[0m").data = resetL := by decide
    show stylePre "bold" ++ t.data ++ resetL = ("\x1b[1m".data ++ t.data) ++ "\x1b[0m".data
    rw [hx, hy]
  simp only [render_markdown, hu]
  rw [e1, e2, e3, e4, e5, e6, e7, e8, e9, hfin]

theorem claim_bold_wrap_amended_witness :
    render_markdown pygNone ("**" ++ "bold words" ++ "**") =
      "\x1b[1m" ++ "bold words" ++ "\x1b[0m" :=
  claim_bold_wrap_amended pygNone "bold words" (by decide)

/-- C1: for every input with no Markdown markup - no line starting with
`'#'`, `'> '`, a list marker (`'*'`, `'-'` or `'+'` followed by
whitespace), or digits followed by `'.'`, and no occurrence of `"**"`,
`'_'`, `"~~"` or a backtick fence - `render_markdown` returns its input
unchanged. -/
theorem claim_render_markdown_identity (pyg : Pyg) (s : String)
    (hHash : noLineTrig trigHash true s.data = true)
    (hQuote : noLineTrig trigQuote true s.data = true)
    (hMarker : noLineTrig trigMarker true s.data = true)
    (hOrd : noLineTrig trigOrdinal true s.data = true)
    (hBold : occursB ['*', '*'] s.data = false)
    (hUnder : occursB ['_'] s.data = false)
    (hStrike : occursB ['~', '~'] s.data = false)
    (hFence : occursB fenceL s.data = false) :
    render_markdown pyg s = s := by
  have hUnder2 : occursB ['_', '_'] s.data = false :=
    occursB_false_of_head '_' ['_'] s.data (forall_ne_of_occursB_single '_' s.data hUnder)
  simp only [render_markdown, headingStage, boldStage, italicStage, underlineStage,
    strikeStage, bqStage, ulistStage, olistStage]
  rw [headingGo_id s.data true hHash s.data.length,
    inlineGo_id '*' ['*'] "bold" s.data hBold s.data.length,
    inlineGo_id '_' [] "italic" s.data hUnder s.data.length,
    inlineGo_id '_' ['_'] "underline" s.data hUnder2 s.data.length,
    inlineGo_id '~' ['~'] "strikethrough" s.data hStrike s.data.length,
    bqGo_id s.data true hQuote s.data.length,
    ulistGo_id s.data true hMarker s.data.length,
    olistGo_id s.data true hOrd s.data.length,
    fencedStage_id pyg s.data hFence]

theorem claim_render_markdown_identity_witness :
    render_markdown pygNone "hello world,\nplain text with no markup." =
      "hello world,\nplain text with no markup." :=
  claim_render_markdown_identity pygNone "hello world,\nplain text with no markup."
    (by decide) (by decide) (by decide) (by decide)
    (by decide) (by decide) (by decide) (by decide)
